import Mathlib

/-!
Verification of the TreeStore module of `quasar-project`.

The store (src/src/stores/TreeStore.ts) keeps a flat list of tree nodes
related by parent references and exposes queries (`getItemById`,
`getChildren`, `getAllChildren`, `getAllParents`) and mutations
(`initialize`, `addItem`, `removeItem`, `updateItem`).  Each definition
below is a direct translation of the corresponding TypeScript function.

Modelling choices:
* the node collection is a `List TreeNode` (the store's `items` array);
* JavaScript `string | number` input ids are modelled by `RawId`;
  `String(x)` is `RawId.toStr`; the JS truthiness test `item.parent ?`
  treats `null`, the number `0` and the empty string as falsy, which
  `RawId.isFalsy` reproduces;
* `throw new Error(...)` is modelled by `Except TreeError`; the error
  constructors correspond one-to-one to the five thrown messages;
* the two recursive traversals (`getAllChildren`, `getAllParents`) are
  general recursion in the source; they are embedded fuel-indexed
  (`getAllChildrenF`, `getAllParentsF`) and used at fuel
  `items.length + 1`.  The stability theorems below prove that on
  collections satisfying the forest invariant the result is independent
  of the fuel from that point on, i.e. the source recursion terminates
  and the fuel embedding computes its value.
-/

namespace TreeStore

/-- A stored tree node: `interface TreeNode { id: string; parent: string | null; label: string }`. -/
structure TreeNode where
  id : String
  parent : Option String
  label : String
deriving DecidableEq, Repr

/-- A raw input id, which in the TypeScript interface may be a number or a string. -/
inductive RawId where
  | num (n : Int)
  | str (s : String)
deriving DecidableEq, Repr

/-- JavaScript `String(x)` applied to a raw id. -/
def RawId.toStr : RawId → String
  | .num n => toString n
  | .str s => s

/-- JavaScript truthiness: the number `0` and the empty string are falsy. -/
def RawId.isFalsy : RawId → Bool
  | .num n => n == 0
  | .str s => s == ""

/-- A raw input item as accepted by `initialize`, `addItem` and `updateItem`. -/
structure RawItem where
  id : RawId
  parent : Option RawId
  label : String
deriving DecidableEq, Repr

/-- The source normalization `item.parent ? String(item.parent) : null`:
a falsy parent (null, `0`, `""`) becomes `null`, otherwise its string form. -/
def normParent : Option RawId → Option String
  | none => none
  | some r => if r.isFalsy then none else some r.toStr

/-- Normalization of a whole raw item, shared by `initialize`, `addItem`, `updateItem`:
`{ ...item, id: String(item.id), parent: item.parent ? String(item.parent) : null }`. -/
def normNode (item : RawItem) : TreeNode :=
  ⟨item.id.toStr, normParent item.parent, item.label⟩

/-- Embeds the store action `initialize(items)` (the name `initialize` is
reserved in Lean): `this.items = items.map(item => ({...item, id: String(item.id),
parent: item.parent ? String(item.parent) : null }))`. -/
def initStore (items : List RawItem) : List TreeNode :=
  items.map normNode

/-- `getItemById: (id) => state.items.find(item => item.id === id)`. -/
def getItemById (items : List TreeNode) (id : String) : Option TreeNode :=
  items.find? (fun item => decide (item.id = id))

/-- `getChildren: (id) => state.items.filter(item => item.parent === id)`. -/
def getChildren (items : List TreeNode) (id : String) : List TreeNode :=
  items.filter (fun item => decide (item.parent = some id))

/-- Fuel-indexed embedding of the recursive action `getAllChildren(id)`:
`const children = this.getChildren(id); const result = [...children];
children.forEach(child => result.push(...this.getAllChildren(child.id))); return result`. -/
def getAllChildrenF (items : List TreeNode) : Nat → String → List TreeNode
  | 0, _ => []
  | fuel+1, id =>
    let children := getChildren items id
    children ++ children.flatMap (fun child => getAllChildrenF items fuel child.id)

/-- `getAllChildren(id)` at the canonical fuel `items.length + 1`, which the
stability theorems prove sufficient on every collection satisfying the forest invariant. -/
def getAllChildren (items : List TreeNode) (id : String) : List TreeNode :=
  getAllChildrenF items (items.length + 1) id

/-- Fuel-indexed embedding of the recursive action `getAllParents(id)`:
`const item = this.getItemById(id); if (!item || !item.parent) return [];
const parent = this.getItemById(item.parent); if (!parent) return [];
return [parent, ...this.getAllParents(parent.id)]`.
The test `!item.parent` is JS truthiness, so an empty-string parent also ends the chain. -/
def getAllParentsF (items : List TreeNode) : Nat → String → List TreeNode
  | 0, _ => []
  | fuel+1, id =>
    match getItemById items id with
    | none => []
    | some item =>
      match item.parent with
      | none => []
      | some pid =>
        if pid = "" then []
        else
          match getItemById items pid with
          | none => []
          | some parent => parent :: getAllParentsF items fuel parent.id

/-- `getAllParents(id)` at the canonical fuel `items.length + 1`. -/
def getAllParents (items : List TreeNode) (id : String) : List TreeNode :=
  getAllParentsF items (items.length + 1) id

/-- The five `throw new Error(...)` cases of the store, by offending id. -/
inductive TreeError where
  | duplicateId (id : String)
  | parentNotFound (id : String)
  | notFound (id : String)
  | newParentNotFound (id : String)
  | cycle
deriving DecidableEq, Repr

/-- `addItem(item)`: normalize, fail on duplicate id, fail on missing non-null
parent, otherwise `this.items.push(newItem)`. -/
def addItem (items : List TreeNode) (item : RawItem) : Except TreeError (List TreeNode) :=
  let newItem := normNode item
  match getItemById items newItem.id with
  | some _ => .error (.duplicateId newItem.id)
  | none =>
    match newItem.parent with
    | some pid =>
      match getItemById items pid with
      | none => .error (.parentNotFound pid)
      | some _ => .ok (items ++ [newItem])
    | none => .ok (items ++ [newItem])

/-- `removeItem(id)`: fail if unknown; otherwise collect `getAllChildren(id)`,
filter each descendant's id out of the collection in turn, then filter out `id` itself. -/
def removeItem (items : List TreeNode) (id : String) : Except TreeError (List TreeNode) :=
  match getItemById items id with
  | none => .error (.notFound id)
  | some _ =>
    let allChildren := getAllChildren items id
    let afterChildren :=
      allChildren.foldl (fun acc child => acc.filter (fun item => decide (item.id ≠ child.id))) items
    .ok (afterChildren.filter (fun item => decide (item.id ≠ id)))

/-- `updateItem(updatedItem)`: normalize, fail if the id is unknown; when the new
parent differs from the current one and is non-null, fail if the new parent is
unknown, fail with the cycle error if the new parent occurs in
`getAllParents(existingItem.id)`; otherwise
`this.items = this.items.map(item => item.id === newItem.id ? newItem : item)`. -/
def updateItem (items : List TreeNode) (updatedItem : RawItem) : Except TreeError (List TreeNode) :=
  let newItem := normNode updatedItem
  match getItemById items newItem.id with
  | none => .error (.notFound newItem.id)
  | some existingItem =>
    match newItem.parent with
    | none => .ok (items.map (fun item => if item.id = newItem.id then newItem else item))
    | some pid =>
      if some pid = existingItem.parent then
        .ok (items.map (fun item => if item.id = newItem.id then newItem else item))
      else
        match getItemById items pid with
        | none => .error (.newParentNotFound pid)
        | some _ =>
          if (getAllParents items existingItem.id).any (fun p => decide (p.id = pid)) then
            .error .cycle
          else
            .ok (items.map (fun item => if item.id = newItem.id then newItem else item))

/-- Direct parenthood between ids: `pid` is the parent recorded on some
collection member whose id is `cid`. -/
def ParentRel (items : List TreeNode) (pid cid : String) : Prop :=
  ∃ x ∈ items, x.id = cid ∧ x.parent = some pid

/-- `a` is a proper ancestor of `b`: a non-empty chain of parent links. -/
def IsAncestor (items : List TreeNode) (a b : String) : Prop :=
  Relation.TransGen (ParentRel items) a b

/-- Every non-null parent reference resolves to a node present in the collection. -/
def ParentsResolve (items : List TreeNode) : Prop :=
  ∀ x ∈ items, ∀ pid, x.parent = some pid → ∃ p ∈ items, p.id = pid

/-- No node is its own ancestor (the collection has no parent-link cycles). -/
def NoSelfAncestor (items : List TreeNode) : Prop :=
  ∀ x ∈ items, ¬ IsAncestor items x.id x.id

/-- Node ids are unique across the collection. -/
def UniqueIds (items : List TreeNode) : Prop :=
  (items.map (fun x => x.id)).Nodup

/-- The forest invariant of the specification: parents resolve, no cycles, unique ids. -/
def ForestInv (items : List TreeNode) : Prop :=
  ParentsResolve items ∧ NoSelfAncestor items ∧ UniqueIds items

/-- Modelled from the spec (the source computes a different order): pre-order
descendant traversal, "each direct child followed immediately by that child's
own full descendant sequence, recursively, for every direct child in
`getChildren` order".  Fuel-indexed like the source traversals. -/
def preOrderDescF (items : List TreeNode) : Nat → String → List TreeNode
  | 0, _ => []
  | fuel+1, id =>
    (getChildren items id).flatMap (fun child => child :: preOrderDescF items fuel child.id)

/-- The spec's pre-order descendant sequence at the canonical fuel. -/
def preOrderDesc (items : List TreeNode) (id : String) : List TreeNode :=
  preOrderDescF items (items.length + 1) id

/-- Decidable check that one node's parent reference resolves in the collection. -/
def parentResolvesB (items : List TreeNode) (x : TreeNode) : Bool :=
  match x.parent with
  | none => true
  | some pid => (items.map (fun p => p.id)).contains pid

/-- Decidable certificate for acyclicity: a rank function that strictly
decreases from every node to its recorded parent. -/
def rankOk (items : List TreeNode) (rank : String → Nat) : Bool :=
  items.all (fun c =>
    match c.parent with
    | none => true
    | some pid => decide (rank pid < rank c.id))

/-- Decidable equality of store results. -/
instance instDecEqExceptResult {ε α : Type} [DecidableEq ε] [DecidableEq α] :
    DecidableEq (Except ε α) := fun x y =>
  match x, y with
  | .error e, .error f =>
    if h : e = f then .isTrue (congrArg Except.error h)
    else .isFalse (fun hc => h (by injection hc))
  | .error _, .ok _ => .isFalse (fun hc => Except.noConfusion hc)
  | .ok _, .error _ => .isFalse (fun hc => Except.noConfusion hc)
  | .ok a, .ok b =>
    if h : a = b then .isTrue (congrArg Except.ok h)
    else .isFalse (fun hc => h (by injection hc))

/-- Uniqueness of ids is decidable. -/
instance instDecUniqueIds (items : List TreeNode) : Decidable (UniqueIds items) := by
  unfold UniqueIds
  infer_instance

/-- Membership in `getChildren` unpacked: the member is in the collection and
its recorded parent is the queried id. -/
theorem mem_getChildren {items : List TreeNode} {id : String} {c : TreeNode}
    (h : c ∈ getChildren items id) : c ∈ items ∧ c.parent = some id := by
  unfold getChildren at h
  rw [List.mem_filter] at h
  exact ⟨h.1, by simpa using h.2⟩

/-- A successful `getItemById` returns a member of the collection bearing the queried id. -/
theorem getItemById_mem {items : List TreeNode} {id : String} {x : TreeNode}
    (h : getItemById items id = some x) : x ∈ items ∧ x.id = id := by
  unfold getItemById at h
  exact ⟨List.mem_of_find?_eq_some h, by simpa using List.find?_some h⟩

/-- `getItemById` succeeds whenever some member bears the queried id. -/
theorem getItemById_isSome {items : List TreeNode} {id : String}
    (h : ∃ x ∈ items, x.id = id) : (getItemById items id).isSome := by
  unfold getItemById
  rw [List.find?_isSome]
  obtain ⟨x, hx, hid⟩ := h
  exact ⟨x, hx, by simpa using hid⟩

/-- Pointwise-equal functions give equal `flatMap`s. -/
theorem flatMap_congr_of_mem {α β : Type} {l : List α} {f g : α → List β}
    (h : ∀ a ∈ l, f a = g a) : l.flatMap f = l.flatMap g := by
  induction l with
  | nil => rfl
  | cons x xs ih =>
    simp only [List.flatMap_cons]
    rw [h x (List.mem_cons_self x xs), ih (fun a ha => h a (List.mem_cons_of_mem x ha))]

/-- Rank certificates transport along ancestor chains. -/
theorem rank_lt_of_isAncestor {items : List TreeNode} {rank : String → Nat}
    (hrk : rankOk items rank = true) {a b : String}
    (h : IsAncestor items a b) : rank a < rank b := by
  induction h with
  | single hr =>
    obtain ⟨x, hx, hid, hpar⟩ := hr
    have := List.all_eq_true.mp hrk x hx
    rw [hpar] at this
    simpa [hid] using this
  | tail _ hr ih =>
    obtain ⟨x, hx, hid, hpar⟩ := hr
    have := List.all_eq_true.mp hrk x hx
    rw [hpar] at this
    simp only [decide_eq_true_eq] at this
    rw [hid] at this
    exact lt_trans ih this

/-- A rank certificate implies acyclicity. -/
theorem noSelfAncestor_of_rankOk {items : List TreeNode} (rank : String → Nat)
    (hrk : rankOk items rank = true) : NoSelfAncestor items :=
  fun _ _ h => lt_irrefl _ (rank_lt_of_isAncestor hrk h)

/-- Decidable form of `ParentsResolve` for concrete collections. -/
theorem parentsResolve_of_all {items : List TreeNode}
    (h : items.all (parentResolvesB items) = true) : ParentsResolve items := by
  intro x hx pid hpid
  have hb := List.all_eq_true.mp h x hx
  simp only [parentResolvesB, hpid] at hb
  rw [List.contains_iff_exists_mem_beq] at hb
  obtain ⟨b, hbm, hbeq⟩ := hb
  obtain ⟨p, hp, hpe⟩ := List.mem_map.mp hbm
  exact ⟨p, hp, hpe.trans (beq_iff_eq.mp hbeq).symm⟩

/-- One fuel step is absorbed by `getAllChildrenF` once the fuel plus the
number of already-banned ancestor ids exceeds the collection size. -/
theorem getAllChildrenF_step (items : List TreeNode)
    (hres : ParentsResolve items) (hacy : NoSelfAncestor items) :
    ∀ fuel id (B : List String), B.Nodup →
      (∀ b ∈ B, b ∈ items.map (fun x => x.id)) →
      (∀ b ∈ B, IsAncestor items b id) →
      items.length + 1 ≤ fuel + B.length →
      getAllChildrenF items (fuel + 1) id = getAllChildrenF items fuel id := by
  intro fuel
  induction fuel with
  | zero =>
    intro id B hnd hsub hanc hlen
    exfalso
    have hle : B.length ≤ (items.map (fun x => x.id)).length :=
      (hnd.subperm (fun b hb => hsub b hb)).length_le
    rw [List.length_map] at hle
    omega
  | succ f ih =>
    intro id B hnd hsub hanc hlen
    show getAllChildrenF items (f + 1 + 1) id = getAllChildrenF items (f + 1) id
    unfold getAllChildrenF
    refine congrArg (getChildren items id ++ ·) (flatMap_congr_of_mem ?_)
    intro c hc
    obtain ⟨hcm, hcp⟩ := mem_getChildren hc
    have hidm : id ∈ items.map (fun x => x.id) := by
      obtain ⟨p, hp, hpe⟩ := hres c hcm id hcp
      exact List.mem_map.mpr ⟨p, hp, hpe⟩
    have hstep : ParentRel items id c.id := ⟨c, hcm, rfl, hcp⟩
    have hninB : id ∉ B := by
      intro hmem
      obtain ⟨x, hx, hxe⟩ := List.mem_map.mp hidm
      exact hacy x hx (hxe ▸ hanc id hmem)
    refine ih c.id (id :: B) (List.nodup_cons.mpr ⟨hninB, hnd⟩) ?_ ?_ ?_
    · intro b hb
      rcases List.mem_cons.mp hb with hb | hb
      · exact hb ▸ hidm
      · exact hsub b hb
    · intro b hb
      rcases List.mem_cons.mp hb with hb | hb
      · exact hb ▸ Relation.TransGen.single hstep
      · exact (hanc b hb).tail hstep
    · simp only [List.length_cons]
      omega

/-- On a collection with resolving parents and no cycles, `getAllChildrenF`
is fuel-independent from `items.length + 1` on: the source recursion of
`getAllChildren` terminates and the canonical fuel computes its value. -/
theorem getAllChildrenF_stable (items : List TreeNode)
    (hres : ParentsResolve items) (hacy : NoSelfAncestor items) :
    ∀ fuel, items.length + 1 ≤ fuel →
      ∀ id, getAllChildrenF items fuel id = getAllChildren items id := by
  intro fuel
  induction fuel with
  | zero => intro h; omega
  | succ f ih =>
    intro h id
    by_cases hge : items.length + 1 ≤ f
    · rw [getAllChildrenF_step items hres hacy f id [] (by simp) (by simp) (by simp)
        (by simpa using hge)]
      exact ih hge id
    · have hf : f + 1 = items.length + 1 := by omega
      rw [hf]
      rfl

/-- Unfolding law for `getAllChildren` on valid forests: the direct children
block comes first, followed by each direct child's full descendant sequence. -/
theorem getAllChildren_unfold (items : List TreeNode)
    (hres : ParentsResolve items) (hacy : NoSelfAncestor items) (id : String) :
    getAllChildren items id =
      getChildren items id ++
        (getChildren items id).flatMap (fun c => getAllChildren items c.id) := by
  show getAllChildrenF items (items.length + 1) id = _
  unfold getAllChildrenF
  refine congrArg (getChildren items id ++ ·) (flatMap_congr_of_mem ?_)
  intro c hc
  obtain ⟨hcm, hcp⟩ := mem_getChildren hc
  have hidm : id ∈ items.map (fun x => x.id) := by
    obtain ⟨p, hp, hpe⟩ := hres c hcm id hcp
    exact List.mem_map.mpr ⟨p, hp, hpe⟩
  have := getAllChildrenF_step items hres hacy items.length c.id [id]
    (by simp) (by simpa using hidm)
    (by
      intro b hb
      rcases List.mem_cons.mp hb with hb | hb
      · exact hb ▸ Relation.TransGen.single ⟨c, hcm, rfl, hcp⟩
      · simp at hb)
    (by simp)
  exact this.symm

/-- Every node returned by `getAllParentsF` is a member of the collection. -/
theorem mem_getAllParentsF (items : List TreeNode) :
    ∀ fuel id p, p ∈ getAllParentsF items fuel id → p ∈ items := by
  intro fuel
  induction fuel with
  | zero => intro id p h; simp [getAllParentsF] at h
  | succ f ih =>
    intro id p h
    unfold getAllParentsF at h
    cases hfind : getItemById items id with
    | none => simp only [hfind] at h; simp at h
    | some item =>
      simp only [hfind] at h
      cases hpar : item.parent with
      | none => simp only [hpar] at h; simp at h
      | some pid =>
        simp only [hpar] at h
        by_cases hpid : pid = ""
        · simp only [if_pos hpid] at h; simp at h
        · simp only [if_neg hpid] at h
          cases hfind2 : getItemById items pid with
          | none => simp only [hfind2] at h; simp at h
          | some parent =>
            simp only [hfind2] at h
            rcases List.mem_cons.mp h with h1 | h2
            · exact h1 ▸ (getItemById_mem hfind2).1
            · exact ih parent.id p h2

/-- Unfolding equation of `getAllParentsF` at positive fuel. -/
theorem getAllParentsF_succ (items : List TreeNode) (fuel : Nat) (id : String) :
    getAllParentsF items (fuel + 1) id =
      match getItemById items id with
      | none => []
      | some item =>
        match item.parent with
        | none => []
        | some pid =>
          if pid = "" then []
          else
            match getItemById items pid with
            | none => []
            | some parent => parent :: getAllParentsF items fuel parent.id := by
  rfl

/-- One fuel step is absorbed by `getAllParentsF` once the fuel plus the
number of already-banned descendant ids exceeds the collection size. -/
theorem getAllParentsF_step (items : List TreeNode) (hacy : NoSelfAncestor items) :
    ∀ fuel id (B : List String), B.Nodup →
      (∀ b ∈ B, b ∈ items.map (fun x => x.id)) →
      (∀ b ∈ B, IsAncestor items id b) →
      items.length + 1 ≤ fuel + B.length →
      getAllParentsF items (fuel + 1) id = getAllParentsF items fuel id := by
  intro fuel
  induction fuel with
  | zero =>
    intro id B hnd hsub hanc hlen
    exfalso
    have hle : B.length ≤ (items.map (fun x => x.id)).length :=
      (hnd.subperm (fun b hb => hsub b hb)).length_le
    rw [List.length_map] at hle
    omega
  | succ f ih =>
    intro id B hnd hsub hanc hlen
    rw [getAllParentsF_succ items (f + 1) id, getAllParentsF_succ items f id]
    cases hfind : getItemById items id with
    | none => simp only [hfind]
    | some item =>
      obtain ⟨hitem, hitemid⟩ := getItemById_mem hfind
      simp only [hfind]
      cases hpar : item.parent with
      | none => simp only [hpar]
      | some pid =>
        simp only [hpar]
        by_cases hpid : pid = ""
        · simp only [if_pos hpid]
        · simp only [if_neg hpid]
          cases hfind2 : getItemById items pid with
          | none => simp only [hfind2]
          | some parent =>
            obtain ⟨hpm, hpe⟩ := getItemById_mem hfind2
            simp only [hfind2]
            have hstep : ParentRel items parent.id id :=
              ⟨item, hitem, hitemid, by rw [hpar, hpe]⟩
            have hninB : id ∉ B := by
              intro hmem
              exact hacy item hitem (hitemid ▸ hanc id hmem)
            refine congrArg (parent :: ·)
              (ih parent.id (id :: B) (List.nodup_cons.mpr ⟨hninB, hnd⟩) ?_ ?_ ?_)
            · intro b hb
              rcases List.mem_cons.mp hb with hb | hb
              · exact hb ▸ List.mem_map.mpr ⟨item, hitem, hitemid⟩
              · exact hsub b hb
            · intro b hb
              rcases List.mem_cons.mp hb with hb | hb
              · exact hb ▸ Relation.TransGen.single hstep
              · exact (hanc b hb).head hstep
            · simp only [List.length_cons]
              omega

/-- On an acyclic collection, `getAllParentsF` is fuel-independent from
`items.length + 1` on: the source recursion of `getAllParents` terminates
and the canonical fuel computes its value. -/
theorem getAllParentsF_stable (items : List TreeNode) (hacy : NoSelfAncestor items) :
    ∀ fuel, items.length + 1 ≤ fuel →
      ∀ id, getAllParentsF items fuel id = getAllParents items id := by
  intro fuel
  induction fuel with
  | zero => intro h; omega
  | succ f ih =>
    intro h id
    by_cases hge : items.length + 1 ≤ f
    · rw [getAllParentsF_step items hacy f id [] (by simp) (by simp) (by simp)
        (by simpa using hge)]
      exact ih hge id
    · have hf : f + 1 = items.length + 1 := by omega
      rw [hf]
      rfl


/-- C1: the claim states that every successful `addItem`, `removeItem` or
`updateItem` preserves the forest invariant.  The code violates it: on the
valid two-node forest of the repository's own circular-dependency test,
`updateItem({id:"1", parent:"2"})` succeeds (the cycle check inspects
`getAllParents` of the node being moved instead of the ancestors of the new
parent) and yields a collection in which node `"1"` is its own ancestor. -/
theorem C1_updateItem_breaks_forest_invariant :
    updateItem [⟨"1", none, "Root"⟩, ⟨"2", some "1", "Child"⟩]
        ⟨RawId.str "1", some (RawId.str "2"), "Root"⟩
      = Except.ok [⟨"1", some "2", "Root"⟩, ⟨"2", some "1", "Child"⟩]
    ∧ ForestInv [⟨"1", none, "Root"⟩, ⟨"2", some "1", "Child"⟩]
    ∧ ¬ ForestInv [⟨"1", some "2", "Root"⟩, ⟨"2", some "1", "Child"⟩] := by
  refine ⟨rfl, ⟨parentsResolve_of_all (by decide),
    noSelfAncestor_of_rankOk (fun s => if s = "1" then 0 else 1) (by decide),
    by decide⟩, ?_⟩
  rintro ⟨-, hacy, -⟩
  refine hacy ⟨"1", some "2", "Root"⟩ (by decide) ?_
  exact (Relation.TransGen.single
      ⟨⟨"2", some "1", "Child"⟩, by decide, rfl, rfl⟩).tail
    ⟨⟨"1", some "2", "Root"⟩, by decide, rfl, rfl⟩

/-- C2: the claim states that `updateItem` moving a node under one of its own
descendants fails with `CycleError` and leaves the collection unchanged.  The
code does not: node `"2"` is a member of `getAllChildren("1")`, yet
`updateItem({id:"1", parent:"2"})` succeeds and mutates the collection —
exactly the scenario the repository's own test expects to throw. -/
theorem C2_descendant_reparent_not_rejected :
    (getAllChildren [⟨"1", none, "Root"⟩, ⟨"2", some "1", "Child"⟩] "1").map (fun x => x.id)
      = ["2"]
    ∧ updateItem [⟨"1", none, "Root"⟩, ⟨"2", some "1", "Child"⟩]
        ⟨RawId.str "1", some (RawId.str "2"), "Root"⟩
      = Except.ok [⟨"1", some "2", "Root"⟩, ⟨"2", some "1", "Child"⟩] :=
  ⟨rfl, rfl⟩

/-- C3 counterexample: the claim asserts a `CycleError` also when the new
parent equals the node's own id.  On the singleton collection the code instead
accepts the update and makes node `"1"` its own parent. -/
theorem C3_counterexample_self_parent_allowed :
    updateItem [⟨"1", none, "Root"⟩] ⟨RawId.str "1", some (RawId.str "1"), "Root"⟩
      = Except.ok [⟨"1", some "1", "Root"⟩]
    ∧ updateItem [⟨"1", none, "Root"⟩] ⟨RawId.str "1", some (RawId.str "1"), "Root"⟩
      ≠ Except.error TreeError.cycle :=
  ⟨rfl, by decide⟩

/-- C3 (amended): for every collection and existing node `n`, when `updateItem`
is called with a new parent that differs from `n`'s current parent and is
non-null, it fails with `CycleError` exactly when the new parent id is the id
of one of `n`'s current ancestors as computed by `getAllParents` on the
existing node before the update is applied. -/
theorem C3_cycle_error_iff_new_parent_is_current_ancestor
    (items : List TreeNode) (u : RawItem) (n : TreeNode) (pid : String)
    (hfind : getItemById items (normNode u).id = some n)
    (hnp : (normNode u).parent = some pid)
    (hdiff : (normNode u).parent ≠ n.parent) :
    (updateItem items u = Except.error TreeError.cycle ↔
      pid ∈ (getAllParents items n.id).map (fun p => p.id)) := by
  have hne : some pid ≠ n.parent := hnp ▸ hdiff
  simp only [updateItem, hfind, hnp]
  rw [if_neg hne]
  cases hfind2 : getItemById items pid with
  | none =>
    simp only [hfind2]
    constructor
    · intro h
      exact absurd h (by intro hc; injection hc with hc; exact TreeError.noConfusion hc)
    · intro h
      obtain ⟨p, hpm, hpe⟩ := List.mem_map.mp h
      have hmem := mem_getAllParentsF items (items.length + 1) n.id p hpm
      have := @getItemById_isSome items pid ⟨p, hmem, hpe⟩
      rw [hfind2] at this
      simp at this
  | some q =>
    simp only [hfind2]
    by_cases hany : (getAllParents items n.id).any (fun p => decide (p.id = pid)) = true
    · rw [if_pos hany]
      simp only [true_iff, iff_true_intro rfl]
      obtain ⟨p, hpm, hpe⟩ := List.any_eq_true.mp hany
      simp only [decide_eq_true_eq] at hpe
      exact List.mem_map.mpr ⟨p, hpm, hpe⟩
    · rw [if_neg hany]
      constructor
      · intro h
        exact absurd h (fun hc => Except.noConfusion hc)
      · intro h
        obtain ⟨p, hpm, hpe⟩ := List.mem_map.mp h
        exact absurd (List.any_eq_true.mpr ⟨p, hpm, by simpa using hpe⟩) hany

/-- C3 witness: on the spec's three-node chain, moving node `"3"` under the
root `"1"` (an ancestor of `"3"`) triggers the cycle error. -/
theorem C3_cycle_error_iff_witness :
    updateItem [⟨"1", none, "R"⟩, ⟨"2", some "1", "A"⟩, ⟨"3", some "2", "B"⟩]
        ⟨RawId.str "3", some (RawId.str "1"), "B"⟩ = Except.error TreeError.cycle := by
  exact (C3_cycle_error_iff_new_parent_is_current_ancestor
    [⟨"1", none, "R"⟩, ⟨"2", some "1", "A"⟩, ⟨"3", some "2", "B"⟩]
    ⟨RawId.str "3", some (RawId.str "1"), "B"⟩ ⟨"3", some "2", "B"⟩ "1"
    rfl rfl (by decide)).mpr (by decide)

/-- C6 counterexample: the claim promises, for every input list, that a
non-null input parent is stored in string form and that `getItemById` on each
input element's string-form id returns that element.  The code violates both:
an input parent `0` is falsy in JavaScript and is normalized to `null` rather
than to `"0"`, and under colliding string-form ids `getItemById` returns the
first element, never the second. -/
theorem C6_counterexample_falsy_parent_and_duplicate_id :
    initStore [⟨RawId.str "1", none, "A"⟩, ⟨RawId.str "1", some (RawId.num 0), "B"⟩]
      = [⟨"1", none, "A"⟩, ⟨"1", none, "B"⟩]
    ∧ getItemById
        (initStore [⟨RawId.str "1", none, "A"⟩, ⟨RawId.str "1", some (RawId.num 0), "B"⟩]) "1"
      = some ⟨"1", none, "A"⟩
    ∧ RawId.toStr (RawId.num 0) = "0" :=
  ⟨rfl, rfl, rfl⟩

/-- C6 (amended): for every input list whose string-form ids are pairwise
distinct, after `initialize` the collection holds, for each input element, a
node whose id is the string form of the input id, whose parent is the string
form of the input parent whenever that parent is truthy (non-null and neither
the number `0` nor the empty string, via `normParent`) and `null` otherwise,
and whose label is the input label; `getItemById` on each string-form id
returns exactly that node. -/
theorem C6_initStore_roundtrip :
    ∀ (X : List RawItem), (X.map (fun x => x.id.toStr)).Nodup →
      ∀ x ∈ X, getItemById (initStore X) x.id.toStr
        = some ⟨x.id.toStr, normParent x.parent, x.label⟩ := by
  intro X
  induction X with
  | nil => intro _ x hx; simp at hx
  | cons y ys ih =>
    intro hnd x hx
    rw [List.map_cons, List.nodup_cons] at hnd
    rcases List.mem_cons.mp hx with rfl | hx'
    · show getItemById (normNode x :: initStore ys) x.id.toStr = _
      unfold getItemById
      rw [List.find?_cons_of_pos _ (by simp [normNode])]
      rfl
    · have hkey : ¬ ((normNode y).id = x.id.toStr) := by
        show ¬ (y.id.toStr = x.id.toStr)
        intro he
        apply hnd.1
        rw [he]
        exact List.mem_map.mpr ⟨x, hx', rfl⟩
      show getItemById (normNode y :: initStore ys) x.id.toStr = _
      unfold getItemById
      rw [List.find?_cons_of_neg _ (by simpa using hkey)]
      exact ih hnd.2 x hx'

/-- C6 witness: the numeric-id round trip of the repository's own test. -/
theorem C6_initStore_roundtrip_witness :
    getItemById (initStore [⟨RawId.num 1, none, "Root"⟩, ⟨RawId.num 2, some (RawId.num 1), "Child"⟩]) "2"
      = some ⟨"2", some "1", "Child"⟩ := by
  exact C6_initStore_roundtrip
    [⟨RawId.num 1, none, "Root"⟩, ⟨RawId.num 2, some (RawId.num 1), "Child"⟩]
    (by decide) ⟨RawId.num 2, some (RawId.num 1), "Child"⟩ (by decide)

/-- C7: `addItem` fails with the duplicate-id error when the normalized id is
already present, fails with the parent-not-found error when the id is fresh
but the normalized parent is non-null and unresolved, and otherwise appends
the normalized node at the end of the collection.  A failure returns no
collection, so the stored collection is unchanged on either error. -/
theorem C7_addItem_semantics (items : List TreeNode) (item : RawItem) :
    ((getItemById items (normNode item).id).isSome →
      addItem items item = Except.error (TreeError.duplicateId (normNode item).id))
    ∧ (getItemById items (normNode item).id = none →
        ∀ pid, (normNode item).parent = some pid → getItemById items pid = none →
          addItem items item = Except.error (TreeError.parentNotFound pid))
    ∧ (getItemById items (normNode item).id = none →
        ((normNode item).parent = none ∨
          ∃ pid, (normNode item).parent = some pid ∧ (getItemById items pid).isSome) →
        addItem items item = Except.ok (items ++ [normNode item])) := by
  refine ⟨?_, ?_, ?_⟩
  · intro hdup
    obtain ⟨w, hw⟩ := Option.isSome_iff_exists.mp hdup
    simp only [addItem, hw]
  · intro hfresh pid hpid hmiss
    simp only [addItem, hfresh, hpid, hmiss]
  · intro hfresh hok
    rcases hok with hnone | ⟨pid, hpid, hsome⟩
    · simp only [addItem, hfresh, hnone]
    · obtain ⟨w, hw⟩ := Option.isSome_iff_exists.mp hsome
      simp only [addItem, hfresh, hpid, hw]

/-- C7 witness: on a one-node collection, a duplicate id, a missing parent and
a successful append, as in the repository's tests. -/
theorem C7_addItem_semantics_witness :
    addItem [⟨"1", none, "Root"⟩] ⟨RawId.str "1", none, "Duplicate"⟩
      = Except.error (TreeError.duplicateId "1")
    ∧ addItem [⟨"1", none, "Root"⟩] ⟨RawId.str "2", some (RawId.str "999"), "Child"⟩
      = Except.error (TreeError.parentNotFound "999")
    ∧ addItem [⟨"1", none, "Root"⟩] ⟨RawId.str "2", some (RawId.str "1"), "Child"⟩
      = Except.ok [⟨"1", none, "Root"⟩, ⟨"2", some "1", "Child"⟩] := by
  refine ⟨(C7_addItem_semantics [⟨"1", none, "Root"⟩] ⟨RawId.str "1", none, "Duplicate"⟩).1
      (by decide),
    (C7_addItem_semantics [⟨"1", none, "Root"⟩] ⟨RawId.str "2", some (RawId.str "999"), "Child"⟩).2.1
      (by decide) "999" rfl (by decide),
    ?_⟩
  exact (C7_addItem_semantics [⟨"1", none, "Root"⟩] ⟨RawId.str "2", some (RawId.str "1"), "Child"⟩).2.2
    (by decide) (Or.inr ⟨"1", rfl, by decide⟩)

/-- C8: `getAllParents` returns the ancestor chain nearest ancestor first: it
is empty for an unknown id and for a root node, it is empty when the first
parent id does not resolve — and in general a dangling parent link stops the
chain (partial result, not an error) — and otherwise it is the resolved parent
followed by that parent's own chain.  Stated on acyclic collections (on a
parent-link cycle the source recursion would not terminate) whose parent ids
are never the empty string (JS truthiness; no store operation ever produces
such a parent). -/
theorem C8_getAllParents_chain (items : List TreeNode) (id : String)
    (hacy : NoSelfAncestor items)
    (hnorm : ∀ x ∈ items, x.parent ≠ some "") :
    (getItemById items id = none → getAllParents items id = [])
    ∧ (∀ item, getItemById items id = some item → item.parent = none →
        getAllParents items id = [])
    ∧ (∀ item pid, getItemById items id = some item → item.parent = some pid →
        getItemById items pid = none → getAllParents items id = [])
    ∧ (∀ item pid p, getItemById items id = some item → item.parent = some pid →
        getItemById items pid = some p →
        getAllParents items id = p :: getAllParents items p.id) := by
  refine ⟨?_, ?_, ?_, ?_⟩
  · intro hfind
    show getAllParentsF items (items.length + 1) id = []
    rw [getAllParentsF_succ items items.length id]
    simp only [hfind]
  · intro item hfind hpar
    show getAllParentsF items (items.length + 1) id = []
    rw [getAllParentsF_succ items items.length id]
    simp only [hfind, hpar]
  · intro item pid hfind hpar hmiss
    show getAllParentsF items (items.length + 1) id = []
    rw [getAllParentsF_succ items items.length id]
    simp only [hfind, hpar]
    by_cases hpid : pid = ""
    · rw [if_pos hpid]
    · rw [if_neg hpid]
      simp only [hmiss]
  · intro item pid p hfind hpar hres
    obtain ⟨hitem, hitemid⟩ := getItemById_mem hfind
    obtain ⟨hpm, hpe⟩ := getItemById_mem hres
    have hpid : pid ≠ "" := by
      intro he
      exact hnorm item hitem (he ▸ hpar)
    show getAllParentsF items (items.length + 1) id = _
    rw [getAllParentsF_succ items items.length id]
    simp only [hfind, hpar]
    rw [if_neg hpid]
    simp only [hres]
    refine congrArg (p :: ·) ?_
    have hstep := getAllParentsF_step items hacy items.length p.id [id]
      (by simp)
      (by
        intro b hb
        rcases List.mem_cons.mp hb with hb | hb
        · exact hb ▸ List.mem_map.mpr ⟨item, hitem, hitemid⟩
        · simp at hb)
      (by
        intro b hb
        rcases List.mem_cons.mp hb with hb | hb
        · exact hb ▸ Relation.TransGen.single ⟨item, hitem, hitemid, by rw [hpar, hpe]⟩
        · simp at hb)
      (by simp)
    exact hstep.symm

/-- C8 witness: the spec's three-node chain, unfolded one step at node `"3"`. -/
theorem C8_getAllParents_chain_witness :
    getAllParents [⟨"1", none, "Root"⟩, ⟨"2", some "1", "Child"⟩,
        ⟨"3", some "2", "Grandchild"⟩] "3"
      = ⟨"2", some "1", "Child"⟩ ::
          getAllParents [⟨"1", none, "Root"⟩, ⟨"2", some "1", "Child"⟩,
            ⟨"3", some "2", "Grandchild"⟩] "2" := by
  exact (C8_getAllParents_chain
    [⟨"1", none, "Root"⟩, ⟨"2", some "1", "Child"⟩, ⟨"3", some "2", "Grandchild"⟩] "3"
    (noSelfAncestor_of_rankOk
      (fun s => if s = "1" then 0 else if s = "2" then 1 else 2) (by decide))
    (by decide)).2.2.2
    ⟨"3", some "2", "Grandchild"⟩ "2" ⟨"2", some "1", "Child"⟩ rfl rfl rfl

/-- C9: on every collection satisfying the forest invariant the recursive
traversals terminate: from fuel `items.length + 1` on, `getAllChildrenF` and
`getAllParentsF` no longer depend on the fuel, so the source recursions of
`getAllChildren` and `getAllParents` reach their base cases and return the
finite sequences computed at the canonical fuel. -/
theorem C9_traversals_terminate (items : List TreeNode) (hinv : ForestInv items) :
    ∀ fuel, items.length + 1 ≤ fuel → ∀ id,
      getAllChildrenF items fuel id = getAllChildren items id
      ∧ getAllParentsF items fuel id = getAllParents items id := by
  obtain ⟨hres, hacy, -⟩ := hinv
  intro fuel hf id
  exact ⟨getAllChildrenF_stable items hres hacy fuel hf id,
    getAllParentsF_stable items hacy fuel hf id⟩

/-- C9 witness: on the five-node test forest, doubling the fuel changes neither traversal. -/
theorem C9_traversals_terminate_witness :
    getAllChildrenF [⟨"1", none, "Root"⟩, ⟨"2", some "1", "C1"⟩, ⟨"3", some "1", "C2"⟩,
        ⟨"4", some "2", "G1"⟩, ⟨"5", some "2", "G2"⟩] 12 "1"
      = getAllChildren [⟨"1", none, "Root"⟩, ⟨"2", some "1", "C1"⟩, ⟨"3", some "1", "C2"⟩,
          ⟨"4", some "2", "G1"⟩, ⟨"5", some "2", "G2"⟩] "1"
    ∧ getAllParentsF [⟨"1", none, "Root"⟩, ⟨"2", some "1", "C1"⟩, ⟨"3", some "1", "C2"⟩,
        ⟨"4", some "2", "G1"⟩, ⟨"5", some "2", "G2"⟩] 12 "4"
      = getAllParents [⟨"1", none, "Root"⟩, ⟨"2", some "1", "C1"⟩, ⟨"3", some "1", "C2"⟩,
          ⟨"4", some "2", "G1"⟩, ⟨"5", some "2", "G2"⟩] "4" := by
  have h := C9_traversals_terminate
    [⟨"1", none, "Root"⟩, ⟨"2", some "1", "C1"⟩, ⟨"3", some "1", "C2"⟩,
      ⟨"4", some "2", "G1"⟩, ⟨"5", some "2", "G2"⟩]
    ⟨parentsResolve_of_all (by decide),
      noSelfAncestor_of_rankOk
        (fun s => if s = "1" then 0 else if s = "4" then 2 else if s = "5" then 2 else 1)
        (by decide),
      by decide⟩ 12 (by decide)
  exact ⟨(h "1").1, (h "4").2⟩

/-- C10: a successful `updateItem` keeps the collection's length, keeps every
node whose id differs from the (normalized) updated id exactly as it was at
its position, and stores the normalized updated node (new label and parent) at
the position of every node carrying that id; moreover when the new parent is
explicitly null the update always succeeds for an existing node — no parent
existence or cycle check is reached. -/
theorem C10_updateItem_frame (items : List TreeNode) (u : RawItem) (n : TreeNode)
    (hfind : getItemById items (normNode u).id = some n) :
    (∀ out, updateItem items u = Except.ok out →
      out.length = items.length
      ∧ ∀ i (h : i < items.length),
          (items[i].id ≠ (normNode u).id → out[i]? = some items[i])
          ∧ (items[i].id = (normNode u).id → out[i]? = some (normNode u)))
    ∧ ((normNode u).parent = none →
        updateItem items u = Except.ok
          (items.map (fun item => if item.id = (normNode u).id then normNode u else item))) := by
  constructor
  · intro out hok
    have hout : out = items.map
        (fun item => if item.id = (normNode u).id then normNode u else item) := by
      simp only [updateItem, hfind] at hok
      cases hp : (normNode u).parent with
      | none =>
        simp only [hp] at hok
        injection hok with hok
        exact hok.symm
      | some pid =>
        simp only [hp] at hok
        by_cases hc : some pid = n.parent
        · rw [if_pos hc] at hok
          injection hok with hok
          exact hok.symm
        · rw [if_neg hc] at hok
          cases hfind2 : getItemById items pid with
          | none => rw [hfind2] at hok; exact absurd hok (fun hh => Except.noConfusion hh)
          | some q =>
            simp only [hfind2] at hok
            by_cases hany :
                (getAllParents items n.id).any (fun p => decide (p.id = pid)) = true
            · rw [if_pos hany] at hok
              exact absurd hok (fun hh => Except.noConfusion hh)
            · rw [if_neg hany] at hok
              injection hok with hok
              exact hok.symm
    subst hout
    refine ⟨List.length_map items _, ?_⟩
    intro i h
    constructor
    · intro hne
      rw [List.getElem?_map, List.getElem?_eq_getElem h]
      simp only [Option.map_some']
      rw [if_neg hne]
    · intro heq
      rw [List.getElem?_map, List.getElem?_eq_getElem h]
      simp only [Option.map_some']
      rw [if_pos heq]
  · intro hp
    simp only [updateItem, hfind, hp]

/-- C10 witness: moving node `"2"` to the root on the two-node forest. -/
theorem C10_updateItem_frame_witness :
    updateItem [⟨"1", none, "Root"⟩, ⟨"2", some "1", "Child"⟩] ⟨RawId.str "2", none, "Moved"⟩
      = Except.ok [⟨"1", none, "Root"⟩, ⟨"2", none, "Moved"⟩] := by
  have h := (C10_updateItem_frame [⟨"1", none, "Root"⟩, ⟨"2", some "1", "Child"⟩]
    ⟨RawId.str "2", none, "Moved"⟩ ⟨"2", some "1", "Child"⟩ rfl).2 rfl
  rw [h]
  rfl

/-- C4 counterexample: on the repository's own five-node test forest,
`getAllChildren("1")` returns `[2, 3, 4, 5]` — all direct children first —
while the pre-order sequence claimed by the spec is `[2, 4, 5, 3]` (each
child followed immediately by its own descendants). -/
theorem C4_counterexample_not_preorder :
    (getAllChildren [⟨"1", none, "Root"⟩, ⟨"2", some "1", "C1"⟩, ⟨"3", some "1", "C2"⟩,
        ⟨"4", some "2", "G1"⟩, ⟨"5", some "2", "G2"⟩] "1").map (fun x => x.id)
      = ["2", "3", "4", "5"]
    ∧ (preOrderDesc [⟨"1", none, "Root"⟩, ⟨"2", some "1", "C1"⟩, ⟨"3", some "1", "C2"⟩,
        ⟨"4", some "2", "G1"⟩, ⟨"5", some "2", "G2"⟩] "1").map (fun x => x.id)
      = ["2", "4", "5", "3"]
    ∧ getAllChildren [⟨"1", none, "Root"⟩, ⟨"2", some "1", "C1"⟩, ⟨"3", some "1", "C2"⟩,
        ⟨"4", some "2", "G1"⟩, ⟨"5", some "2", "G2"⟩] "1"
      ≠ preOrderDesc [⟨"1", none, "Root"⟩, ⟨"2", some "1", "C1"⟩, ⟨"3", some "1", "C2"⟩,
        ⟨"4", some "2", "G1"⟩, ⟨"5", some "2", "G2"⟩] "1" :=
  ⟨rfl, rfl, by decide⟩

/-- C4 (amended): on every collection satisfying the forest invariant,
`getAllChildren(id)` lists all direct children first, in `getChildren` order,
followed by each direct child's own full descendant sequence (computed by the
same rule, recursively), concatenated in the same child order. -/
theorem C4_getAllChildren_children_first (items : List TreeNode)
    (hinv : ForestInv items) (id : String) :
    getAllChildren items id =
      getChildren items id ++
        (getChildren items id).flatMap (fun c => getAllChildren items c.id) := by
  obtain ⟨hres, hacy, -⟩ := hinv
  exact getAllChildren_unfold items hres hacy id

/-- C4 witness: the unfolding law evaluated on the five-node test forest. -/
theorem C4_getAllChildren_children_first_witness :
    getAllChildren [⟨"1", none, "Root"⟩, ⟨"2", some "1", "C1"⟩, ⟨"3", some "1", "C2"⟩,
        ⟨"4", some "2", "G1"⟩, ⟨"5", some "2", "G2"⟩] "1"
      = getChildren [⟨"1", none, "Root"⟩, ⟨"2", some "1", "C1"⟩, ⟨"3", some "1", "C2"⟩,
          ⟨"4", some "2", "G1"⟩, ⟨"5", some "2", "G2"⟩] "1" ++
        (getChildren [⟨"1", none, "Root"⟩, ⟨"2", some "1", "C1"⟩, ⟨"3", some "1", "C2"⟩,
          ⟨"4", some "2", "G1"⟩, ⟨"5", some "2", "G2"⟩] "1").flatMap
          (fun c => getAllChildren [⟨"1", none, "Root"⟩, ⟨"2", some "1", "C1"⟩,
            ⟨"3", some "1", "C2"⟩, ⟨"4", some "2", "G1"⟩, ⟨"5", some "2", "G2"⟩] c.id) := by
  exact C4_getAllChildren_children_first
    [⟨"1", none, "Root"⟩, ⟨"2", some "1", "C1"⟩, ⟨"3", some "1", "C2"⟩,
      ⟨"4", some "2", "G1"⟩, ⟨"5", some "2", "G2"⟩]
    ⟨parentsResolve_of_all (by decide),
      noSelfAncestor_of_rankOk
        (fun s => if s = "1" then 0 else if s = "4" then 2 else if s = "5" then 2 else 1)
        (by decide),
      by decide⟩ "1"

/-- Folding the per-descendant filters of `removeItem` over a collection
removes exactly the members whose id occurs among the descendants' ids. -/
theorem foldl_filter_not_mem (cs : List TreeNode) :
    ∀ (l : List TreeNode),
      cs.foldl (fun acc child => acc.filter (fun item => decide (item.id ≠ child.id))) l
        = l.filter (fun item => decide (item.id ∉ cs.map (fun c => c.id))) := by
  induction cs with
  | nil =>
    intro l
    simp
  | cons c cs ih =>
    intro l
    rw [List.foldl_cons, ih, List.filter_filter]
    apply List.filter_congr
    intro x hx
    simp only [List.map_cons, List.mem_cons, not_or, Bool.decide_and, decide_not]
    rw [Bool.and_comm]

/-- C5: on every collection satisfying the forest invariant, `removeItem` on
an existing id succeeds and returns the original collection filtered to the
nodes whose id is neither the removed id nor the id of one of its transitive
descendants (`getAllChildren`): exactly `{id} ∪ getAllChildren(id)` is
removed, every other node is untouched and the relative order is preserved;
on an unknown id it fails with the not-found error. -/
theorem C5_removeItem_semantics (items : List TreeNode) (id : String)
    (hinv : ForestInv items) :
    ((getItemById items id).isSome →
      removeItem items id = Except.ok (items.filter (fun x =>
        decide (¬ (x.id = id ∨ x.id ∈ (getAllChildren items id).map (fun c => c.id))))))
    ∧ (getItemById items id = none →
        removeItem items id = Except.error (TreeError.notFound id)) := by
  constructor
  · intro hsome
    obtain ⟨w, hw⟩ := Option.isSome_iff_exists.mp hsome
    simp only [removeItem, hw]
    refine congrArg Except.ok ?_
    rw [foldl_filter_not_mem, List.filter_filter]
    apply List.filter_congr
    intro x hx
    simp only [not_or, Bool.decide_and, decide_not]
  · intro hnone
    simp only [removeItem, hnone]

/-- C5 witness: removing node `"2"` from the four-node test forest removes the
node and its descendant `"4"` and keeps `"1"` and `"3"` in order. -/
theorem C5_removeItem_semantics_witness :
    removeItem [⟨"1", none, "Root"⟩, ⟨"2", some "1", "C1"⟩, ⟨"3", some "1", "C2"⟩,
        ⟨"4", some "2", "G"⟩] "2"
      = Except.ok [⟨"1", none, "Root"⟩, ⟨"3", some "1", "C2"⟩] := by
  have h := (C5_removeItem_semantics
    [⟨"1", none, "Root"⟩, ⟨"2", some "1", "C1"⟩, ⟨"3", some "1", "C2"⟩, ⟨"4", some "2", "G"⟩]
    "2"
    ⟨parentsResolve_of_all (by decide),
      noSelfAncestor_of_rankOk
        (fun s => if s = "1" then 0 else if s = "4" then 2 else 1) (by decide),
      by decide⟩).1 (by decide)
  rw [h]
  rfl

end TreeStore
